/-
Verification of the streaming transmit/receive coordinator with
cross-correlation-based loopback verification (gps_tx_rx_loopback.py).

The embedding mirrors the Python source:
  * complex64 sample values are modelled by exact complex numbers with
    rational components (`CQ`); numpy float arithmetic is modelled by
    exact rational arithmetic;
  * the FFT round trip `ifft(fft(b, n) * conj(fft(a, n)))` is modelled by
    its exact mathematical value, the circular cross-correlation
    (discrete convolution theorem); the identity between the two is
    proved over `ℂ` below (`idft_dft_mul_conj_eq_circ`);
  * the transmit / receive threads are modelled as explicit state-step
    functions driven by schedules describing the external transport
    (stop flag, send failures, receive outcomes);
  * Python exceptions are modelled by `Except`.
-/
import Mathlib

set_option maxHeartbeats 1000000

noncomputable section MathPrelim

open Complex Finset

/-- The primitive n-th root of unity used by the inverse transform. -/
def dftRoot (n : ℕ) : ℂ := Complex.exp (2 * Real.pi * Complex.I / n)

/-- Forward discrete Fourier transform of an `n`-periodic signal,
numpy convention: `X k = ∑ j, x j * exp (-2*pi*I*j*k/n)`. -/
def dft (n : ℕ) (x : ℕ → ℂ) (k : ℕ) : ℂ :=
  ∑ j ∈ Finset.range n, x j * (dftRoot n)⁻¹ ^ (j * k)

/-- Inverse discrete Fourier transform, numpy convention. -/
def idft (n : ℕ) (x : ℕ → ℂ) (m : ℕ) : ℂ :=
  (n : ℂ)⁻¹ * ∑ k ∈ Finset.range n, x k * dftRoot n ^ (m * k)

end MathPrelim

/-- Exact complex numbers with rational real and imaginary parts; the
model of numpy `complex64` sample values. -/
structure CQ where
  re : ℚ
  im : ℚ
deriving DecidableEq, Repr

namespace CQ

def add (x y : CQ) : CQ := ⟨x.re + y.re, x.im + y.im⟩

def sub (x y : CQ) : CQ := ⟨x.re - y.re, x.im - y.im⟩

def mul (x y : CQ) : CQ := ⟨x.re * y.re - x.im * y.im, x.re * y.im + x.im * y.re⟩

/-- Complex conjugate. -/
def conj (x : CQ) : CQ := ⟨x.re, -x.im⟩

/-- Squared magnitude, an exact rational. -/
def normSq (x : CQ) : ℚ := x.re * x.re + x.im * x.im

instance : Zero CQ := ⟨⟨0, 0⟩⟩

instance : One CQ := ⟨⟨1, 0⟩⟩

instance : Add CQ := ⟨CQ.add⟩

instance : Sub CQ := ⟨CQ.sub⟩

instance : Mul CQ := ⟨CQ.mul⟩

@[simp] theorem zero_re : (0 : CQ).re = 0 := rfl

@[simp] theorem zero_im : (0 : CQ).im = 0 := rfl

@[simp] theorem one_re : (1 : CQ).re = 1 := rfl

@[simp] theorem one_im : (1 : CQ).im = 0 := rfl

@[simp] theorem add_re (x y : CQ) : (x + y).re = x.re + y.re := rfl

@[simp] theorem add_im (x y : CQ) : (x + y).im = x.im + y.im := rfl

@[simp] theorem sub_re (x y : CQ) : (x - y).re = x.re - y.re := rfl

@[simp] theorem sub_im (x y : CQ) : (x - y).im = x.im - y.im := rfl

@[simp] theorem mul_re (x y : CQ) : (x * y).re = x.re * y.re - x.im * y.im := rfl

@[simp] theorem mul_im (x y : CQ) : (x * y).im = x.re * y.im + x.im * y.re := rfl

@[simp] theorem mk_add_mk (a b c d : ℚ) :
    (⟨a, b⟩ : CQ) + ⟨c, d⟩ = ⟨a + c, b + d⟩ := rfl

@[simp] theorem mk_sub_mk (a b c d : ℚ) :
    (⟨a, b⟩ : CQ) - ⟨c, d⟩ = ⟨a - c, b - d⟩ := rfl

@[simp] theorem mk_mul_mk (a b c d : ℚ) :
    (⟨a, b⟩ : CQ) * ⟨c, d⟩ = ⟨a * c - b * d, a * d + b * c⟩ := rfl

@[simp] theorem conj_mk (a b : ℚ) : CQ.conj ⟨a, b⟩ = ⟨a, -b⟩ := rfl

@[simp] theorem normSq_mk (a b : ℚ) : CQ.normSq ⟨a, b⟩ = a * a + b * b := rfl

@[simp] theorem conj_zero : CQ.conj 0 = 0 := by
  show CQ.conj ⟨0, 0⟩ = ⟨0, 0⟩
  simp

@[simp] theorem mul_zero (x : CQ) : x * 0 = 0 := by
  show x * ⟨0, 0⟩ = ⟨0, 0⟩
  cases x
  simp

@[simp] theorem zero_mul (x : CQ) : 0 * x = 0 := by
  show (⟨0, 0⟩ : CQ) * x = ⟨0, 0⟩
  cases x
  simp

@[simp] theorem add_zero (x : CQ) : x + 0 = x := by
  show x + ⟨0, 0⟩ = x
  cases x
  simp

@[simp] theorem zero_add (x : CQ) : 0 + x = x := by
  show (⟨0, 0⟩ : CQ) + x = x
  cases x
  simp

@[simp] theorem normSq_zero : CQ.normSq 0 = 0 := by
  show CQ.normSq ⟨0, 0⟩ = 0
  simp

theorem normSq_nonneg (x : CQ) : 0 ≤ CQ.normSq x := by
  rw [CQ.normSq]
  nlinarith [sq_nonneg x.re, sq_nonneg x.im]

theorem zero_def : (0 : CQ) = ⟨0, 0⟩ := rfl

theorem one_def : (1 : CQ) = ⟨1, 0⟩ := rfl

/-- Embedding of the exact rational complex numbers into `ℂ`. -/
noncomputable def toC (x : CQ) : ℂ := Complex.mk (x.re : ℝ) (x.im : ℝ)

@[simp] theorem toC_re (x : CQ) : (toC x).re = (x.re : ℝ) := rfl

@[simp] theorem toC_im (x : CQ) : (toC x).im = (x.im : ℝ) := rfl

theorem toC_zero : toC 0 = 0 := by
  apply Complex.ext <;> simp

theorem toC_add (x y : CQ) : toC (x + y) = toC x + toC y := by
  apply Complex.ext <;> simp

theorem toC_mul (x y : CQ) : toC (x * y) = toC x * toC y := by
  apply Complex.ext <;> simp [Complex.mul_re, Complex.mul_im]

theorem toC_conj (x : CQ) : toC (CQ.conj x) = (starRingEnd ℂ) (toC x) := by
  apply Complex.ext <;> simp [CQ.conj]

theorem normSq_toC (x : CQ) : Complex.normSq (toC x) = (CQ.normSq x : ℝ) := by
  simp [Complex.normSq_apply, CQ.normSq]

end CQ

/-- Sum of a list of `CQ`. -/
def csum (l : List CQ) : CQ := l.foldr (fun x acc => x + acc) 0

theorem csum_nil : csum [] = 0 := rfl

theorem csum_cons (x : CQ) (l : List CQ) : csum (x :: l) = x + csum l := rfl

theorem toC_csum (l : List CQ) : CQ.toC (csum l) = (l.map CQ.toC).sum := by
  induction l with
  | nil => simpa using CQ.toC_zero
  | cons x xs ih => simp [csum_cons, CQ.toC_add, ih]

/-- Signal energy: sum of squared magnitudes (exact rational). -/
def energy (l : List CQ) : ℚ := (l.map CQ.normSq).sum

/-! ## Sample Source: `load_iq_file(path, fmt)` (lines 38-52)

The file system is modelled by a flag `pathExists` plus the raw byte
content of the file.  `np.fromfile(path, dtype=np.int16)` reads
little-endian 16-bit pairs, silently dropping a trailing odd byte;
`np.fromfile(path, dtype=np.complex64)` reads 8-byte groups (two IEEE-754
binary32 components), silently dropping an incomplete trailing group.
Python exceptions become `Except` errors. -/

/-- The kinds of errors `load_iq_file` can raise. -/
inductive LoadError where
  /-- models `FileNotFoundError` -/
  | fileNotFound : LoadError
  /-- models `ValueError` with its message -/
  | valueError : String → LoadError
deriving DecidableEq, Repr

/-- Little-endian signed 16-bit value from two bytes. -/
def int16OfBytes (b0 b1 : ℕ) : ℤ :=
  let v : ℤ := (b0 % 256 : ℕ) + 256 * ((b1 % 256 : ℕ) : ℤ)
  if v < 32768 then v else v - 65536

/-- `np.fromfile(path, dtype=np.int16)`: consecutive byte pairs; a
trailing odd byte is dropped. -/
def int16sOfBytes : List ℕ → List ℤ
  | b0 :: b1 :: rest => int16OfBytes b0 b1 :: int16sOfBytes rest
  | _ => []

/-- `raw.reshape(-1, 2)` followed by `(I + 1j*Q) / 32768.0`:
consecutive int16 pairs become one unit-scaled complex sample. -/
def sc16Pairs : List ℤ → List CQ
  | i :: q :: rest => ⟨(i : ℚ) / 32768, (q : ℚ) / 32768⟩ :: sc16Pairs rest
  | _ => []

/-- Groups of 8 consecutive bytes (one `complex64`); an incomplete
trailing group is dropped, as `np.fromfile` does. -/
def chunks8 : List ℕ → List (List ℕ)
  | b0 :: b1 :: b2 :: b3 :: b4 :: b5 :: b6 :: b7 :: rest =>
      [b0, b1, b2, b3, b4, b5, b6, b7] :: chunks8 rest
  | _ => []

/-- Exact value of an IEEE-754 binary32 number given as 4 little-endian
bytes.  Every finite float is an exact rational; the non-finite
encodings (exponent 255: infinities and NaNs) are mapped to 0 — they
never arise from the claims, which only concern lengths and errors. -/
def float32OfBytes (b0 b1 b2 b3 : ℕ) : ℚ :=
  let bits : ℕ := b0 % 256 + 256 * (b1 % 256) + 65536 * (b2 % 256) + 16777216 * (b3 % 256)
  let sign : ℕ := bits / 2 ^ 31
  let expo : ℕ := bits / 2 ^ 23 % 256
  let frac : ℕ := bits % 2 ^ 23
  let mag : ℚ :=
    if expo = 255 then 0
    else if expo = 0 then (frac : ℚ) / 2 ^ 23 * ((2 : ℚ) ^ (126 : ℕ))⁻¹
    else (1 + (frac : ℚ) / 2 ^ 23) * (2 : ℚ) ^ ((expo : ℤ) - 127)
  if sign = 1 then -mag else mag

/-- One `complex64` from an 8-byte group (real part first). -/
def complex64OfGroup (g : List ℕ) : CQ :=
  ⟨float32OfBytes (g.getD 0 0) (g.getD 1 0) (g.getD 2 0) (g.getD 3 0),
   float32OfBytes (g.getD 4 0) (g.getD 5 0) (g.getD 6 0) (g.getD 7 0)⟩

/-- `load_iq_file(path, fmt)` (lines 38-52). -/
def load_iq_file (pathExists : Bool) (fmt : String) (bytes : List ℕ) :
    Except LoadError (List CQ) :=
  if pathExists = false then .error .fileNotFound
  else if fmt = "fc32" then .ok ((chunks8 bytes).map complex64OfGroup)
  else if fmt = "sc16" then
    let raw := int16sOfBytes bytes
    if raw.length % 2 ≠ 0 then .error (.valueError "sc16 file length not even")
    else .ok (sc16Pairs raw)
  else .error (.valueError "Unsupported FILE_FORMAT: use fc32 or sc16")

theorem chunks8_length : ∀ bytes : List ℕ, (chunks8 bytes).length = bytes.length / 8
  | b0 :: b1 :: b2 :: b3 :: b4 :: b5 :: b6 :: b7 :: rest => by
      rw [chunks8]
      have ih := chunks8_length rest
      simp only [List.length_cons, ih]
      omega
  | [] => by simp [chunks8]
  | [_] => by simp [chunks8]
  | [_, _] => by simp [chunks8]
  | [_, _, _] => by simp [chunks8]
  | [_, _, _, _] => by simp [chunks8]
  | [_, _, _, _, _] => by simp [chunks8]
  | [_, _, _, _, _, _] => by simp [chunks8]
  | [_, _, _, _, _, _, _] => by simp [chunks8]

theorem int16sOfBytes_length : ∀ bytes : List ℕ,
    (int16sOfBytes bytes).length = bytes.length / 2
  | _ :: _ :: rest => by
      rw [int16sOfBytes]
      have ih := int16sOfBytes_length rest
      simp only [List.length_cons, ih]
      omega
  | [] => by simp [int16sOfBytes]
  | [_] => by simp [int16sOfBytes]

theorem sc16Pairs_length : ∀ raw : List ℤ, (sc16Pairs raw).length = raw.length / 2
  | _ :: _ :: rest => by
      rw [sc16Pairs]
      have ih := sc16Pairs_length rest
      simp only [List.length_cons, ih]
      omega
  | [] => by simp [sc16Pairs]
  | [_] => by simp [sc16Pairs]

/-! ## Transmit Streamer: `tx_thread_fn` (lines 54-94)

The thread body is a `while not stop_event.is_set()` loop inside a
`try`, with a `finally` block that flushes a zero-length end-of-burst
chunk.  Crucially the `try` wraps the *whole* loop: an exception raised
by `tx_stream.send` leaves the loop (it is printed once and control
reaches `finally`).  The external transport is modelled by two
schedules: `stop k` — whether the stop event is set when iteration `k`
begins — and `fail k` — whether the k-th call to `send` raises. -/

/-- One chunk handed to `tx_stream.send` together with the burst
metadata flags in force for that call. -/
structure TxChunk (α : Type) where
  samples : List α
  sob : Bool
  eob : Bool
deriving DecidableEq, Repr

/-- How the transmit while-loop is doing. -/
inductive TxPhase where
  /-- still inside the while loop -/
  | running : TxPhase
  /-- left the loop via `break` or the stop event -/
  | finished : TxPhase
  /-- left the loop because a `send` raised (caught at line 87) -/
  | excepted : TxPhase
deriving DecidableEq, Repr

/-- State of the transmit loop: read cursor, the `first` flag (which
mirrors `md.start_of_burst`), chunks successfully handed to the
transport, the loop-iteration counter, and the phase. -/
structure TxState (α : Type) where
  idx : ℕ
  first : Bool
  sent : List (TxChunk α)
  iter : ℕ
  phase : TxPhase
deriving DecidableEq, Repr

def txInit {α : Type} : TxState α := ⟨0, true, [], 0, .running⟩

/-- One iteration of the transmit while-loop (lines 65-86). -/
def txStep {α : Type} (loopFile : Bool) (chunkSamples : ℕ) (data : List α)
    (stop fail : ℕ → Bool) (s : TxState α) : TxState α :=
  if s.phase ≠ .running then s
  else if stop s.iter then { s with phase := .finished }
  else
    let total := data.length
    if total - s.idx = 0 ∧ loopFile = false then { s with phase := .finished }
    else
      -- on wrap (remaining == 0, looping) the cursor is reset to 0 first
      let idx0 := if total - s.idx = 0 then 0 else s.idx
      let csz := min chunkSamples (total - idx0)
      if fail s.sent.length then { s with phase := .excepted }
      else
        { idx := idx0 + csz
          first := false
          sent := s.sent ++ [⟨(data.drop idx0).take csz, s.first, false⟩]
          iter := s.iter + 1
          phase := .running }

/-- Iterate the transmit loop for at most `fuel` iterations. -/
def txLoop {α : Type} (loopFile : Bool) (chunkSamples : ℕ) (data : List α)
    (stop fail : ℕ → Bool) : ℕ → TxState α → TxState α
  | 0, s => s
  | fuel + 1, s => txLoop loopFile chunkSamples data stop fail fuel
      (txStep loopFile chunkSamples data stop fail s)

/-- A complete transmit session: run the loop, then the `finally` block
sends a zero-length chunk with `end_of_burst = True` (lines 89-94);
`flushOk` tells whether that best-effort send is accepted by the
transport (its failure is swallowed by the inner `try/except`). -/
def txSession {α : Type} (loopFile : Bool) (chunkSamples : ℕ) (data : List α)
    (stop fail : ℕ → Bool) (fuel : ℕ) (flushOk : Bool) : List (TxChunk α) :=
  let s := txLoop loopFile chunkSamples data stop fail fuel txInit
  s.sent ++ (if flushOk then [⟨[], s.first, true⟩] else [])

/-- The chunks of a buffer in order: full chunks of `c` samples, the
last one possibly shorter (reference decomposition for the
non-looping pass). -/
def chunksOf {α : Type} : ℕ → List α → List (List α)
  | _, [] => []
  | 0, _ :: _ => []
  | c + 1, x :: xs => ((x :: xs).take (c + 1)) :: chunksOf (c + 1) ((x :: xs).drop (c + 1))
termination_by c l => l.length
decreasing_by simp; omega

/-! ## Receive Streamer: `rx_thread_fn` (lines 96-113)

The loop body: `recv` may raise (logged, loop continues), may set a
metadata error code (logged, samples discarded even if a count was
returned), or succeeds with `num` valid samples which are appended to
the capture sink.  The sink is the sequence of samples written to the
output file; one sample is 8 bytes (`complex64`). -/

/-- Outcome of one receive iteration, as seen by the loop body. -/
inductive RxOutcome (α : Type) where
  /-- `rx_stream.recv` raised -/
  | recvExc : RxOutcome α
  /-- `md.error_code != none`; any returned samples are discarded -/
  | mdErr : List α → RxOutcome α
  /-- no error; the list holds the `num` valid samples `buf[:num]` -/
  | good : List α → RxOutcome α
deriving DecidableEq, Repr

/-- One iteration of the receive loop acting on the capture sink. -/
def rxStep {α : Type} (sink : List α) : RxOutcome α → List α
  | .recvExc => sink
  | .mdErr _ => sink
  | .good r => sink ++ r

/-- The capture sink after processing a sequence of receive outcomes. -/
def rxRun {α : Type} (outcomes : List (RxOutcome α)) : List α :=
  outcomes.foldl rxStep []

/-- Valid-sample count of an iteration: the number of samples kept. -/
def validCount {α : Type} : RxOutcome α → ℕ
  | .good r => r.length
  | _ => 0

/-- Bytes per sample written by the sink (`complex64` = 8 bytes). -/
def bytesPerSample : ℕ := 8

/-- Byte length of the capture sink. -/
def sinkBytes {α : Type} (sink : List α) : ℕ := bytesPerSample * sink.length

/-! ## Correlation Analyzer: `fft_xcorr` (115-122), `analyze_correlation` (124-160)

`fft_xcorr(a, b)` computes `n = 1 << int(np.ceil(np.log2(na + nb - 1)))`,
then `ifft(fft(b, n) * conj(fft(a, n)))[: na + nb - 1]`.

Two aspects need care:

* `na + nb - 1` is evaluated with Python integers, and
  `int(np.ceil(np.log2(x)))` raises when `x <= 0` (`OverflowError` on
  `-inf` for `x = 0`, `ValueError` on `nan` for `x < 0`).  This happens
  exactly when `na + nb <= 1`; it is modelled by an `Except` error.
* for `na + nb - 1 >= 1` and integer inputs up to `2 ** 52`,
  `int(np.ceil(np.log2(x)))` equals `Nat.clog 2 x`, so
  `n = 2 ^ Nat.clog 2 (na + nb - 1)`.
* the FFT round trip is modelled by its exact mathematical value: by the
  discrete convolution theorem (proved below over `ℂ` as
  `idft_dft_mul_conj_eq_circ`), entry `m` of
  `ifft(fft(b, n) * conj(fft(a, n)))` equals the circular
  cross-correlation `∑ q < n, conj (a q) * b ((q + m) % n)` of the
  zero-padded inputs. -/

/-- `1 << int(np.ceil(np.log2(m)))` for `m ≥ 1`: the smallest power of
two that is at least `m`. -/
def fftSize (m : ℕ) : ℕ := 2 ^ Nat.clog 2 m

/-- Entry `m` of the circular cross-correlation of `a` and `b`
zero-padded to length `n` — the exact value of entry `m` of
`ifft(fft(b, n) * conj(fft(a, n)))`. -/
def circCorr (a b : List CQ) (n m : ℕ) : CQ :=
  csum ((List.range n).map fun q => CQ.conj (a.getD q 0) * b.getD ((q + m) % n) 0)

/-- The retained correlation sequence `corr[: na + nb - 1]`. -/
def corrList (a b : List CQ) : List CQ :=
  (List.range (a.length + b.length - 1)).map
    (circCorr a b (fftSize (a.length + b.length - 1)))

/-- Error raised by `int(np.ceil(np.log2(na + nb - 1)))` when
`na + nb - 1 <= 0`. -/
inductive XcorrError where
  | emptyTransform : XcorrError
deriving DecidableEq, Repr

/-- `fft_xcorr(a, b)` (lines 115-122). -/
def fft_xcorr (a b : List CQ) : Except XcorrError (List CQ) :=
  if a.length + b.length ≤ 1 then .error .emptyTransform
  else .ok (corrList a b)

/-- Largest squared magnitude in a list (`0` for the empty list; all
squared magnitudes are nonnegative). -/
def maxSq : List CQ → ℚ
  | [] => 0
  | x :: xs => max (CQ.normSq x) (maxSq xs)

/-- `np.argmax(np.abs(corr))`: index of the first entry of maximal
magnitude (comparing magnitudes is comparing squared magnitudes). -/
def npArgmaxSq : List CQ → ℕ
  | [] => 0
  | x :: xs => if maxSq xs ≤ CQ.normSq x then 0 else npArgmaxSq xs + 1

/-- The float literal `1e-12` of the source, at face value. -/
def eps12 : ℚ := 1 / 10 ^ 12

/-- The float literal `1e-24` of the source, at face value. -/
def eps24 : ℚ := 1 / 10 ^ 24

/-- `peak_idx` for already-truncated inputs (line 132). -/
def peakIdxOf (tx rx : List CQ) : ℕ := npArgmaxSq (corrList tx rx)

/-- `lag = peak_idx - (tx.size - 1)` (line 134), a signed integer. -/
def lagOf (tx rx : List CQ) : ℤ := (peakIdxOf tx rx : ℤ) - ((tx.length : ℤ) - 1)

/-- `start = max(0, lag)` (line 137). -/
def segStartOf (tx rx : List CQ) : ℕ := (max 0 (lagOf tx rx)).toNat

/-- `rx_segment` (lines 137-144): the captured window starting at
`max(0, lag)`, of at most `tx.size` samples. -/
def rxSegmentOf (tx rx : List CQ) : List CQ :=
  let start := segStartOf tx rx
  if start + tx.length ≤ rx.length then (rx.drop start).take tx.length
  else rx.drop start

/-- `residual = rx_segment - tx[:rx_segment.size]` (line 149). -/
def residualOf (tx rx : List CQ) : List CQ :=
  List.zipWith (fun x y => x - y) (rxSegmentOf tx rx) (tx.take (rxSegmentOf tx rx).length)

/-- The result record of `analyze_correlation` (lines 153-160).
Irrational quantities are carried by their exact rational precursors:
`peak_value = sqrt peakSq`, `norm_peak` and `snr_db_est` are recovered
by the real-valued functions below. -/
structure AnalysisResult where
  peak_index : ℕ
  lag_samples : ℤ
  peakSq : ℚ
  E_tx : ℚ
  E_rx_seg : ℚ
  signalPower : ℚ
  noisePower : ℚ
  snrArg : ℚ
deriving DecidableEq, Repr

/-- `peak_val = abs_corr[peak_idx]` (line 133). -/
noncomputable def peak_value (r : AnalysisResult) : ℝ := Real.sqrt (r.peakSq : ℝ)

/-- `norm_peak = peak_val / (sqrt(E_tx * (E_rx_seg + 1e-12)) + 1e-24)`
(line 146). -/
noncomputable def norm_peak (r : AnalysisResult) : ℝ :=
  peak_value r / (Real.sqrt ((r.E_tx : ℝ) * ((r.E_rx_seg : ℝ) + (eps12 : ℝ))) + (eps24 : ℝ))

/-- `snr_est = 10 * log10(max(1e-12, signal_power / (noise_power + 1e-12)))`
(line 151). -/
noncomputable def snr_db_est (r : AnalysisResult) : ℝ :=
  10 * Real.logb 10 (r.snrArg : ℝ)

/-- `analyze_correlation(tx_samples, rx_samples)` (lines 124-160).  The
truncation caps `TX_REF_SAMPLES` / `CORR_SEARCH_SAMPLES` are module
constants in the source; they are passed here as the parameters
`refCap` / `searchCap` (the spec signature `analyze(reference,
captured, ref_cap, search_cap)`). -/
def analyze_correlation (refCap searchCap : ℕ) (txSamples rxSamples : List CQ) :
    Except XcorrError AnalysisResult :=
  let tx := txSamples.take (min txSamples.length refCap)
  let rx := rxSamples.take (min rxSamples.length searchCap)
  match fft_xcorr tx rx with
  | .error e => .error e
  | .ok corr =>
    let peakIdx := npArgmaxSq corr
    let peakSq := CQ.normSq (corr.getD peakIdx 0)
    let lag : ℤ := (peakIdx : ℤ) - ((tx.length : ℤ) - 1)
    let eTx := energy tx
    let seg := rxSegmentOf tx rx
    let eSeg := energy seg
    let signalPower := eSeg / ((max 1 seg.length : ℕ) : ℚ)
    let res := List.zipWith (fun x y => x - y) seg (tx.take seg.length)
    let noisePower := energy res / ((max 1 res.length : ℕ) : ℚ)
    .ok { peak_index := peakIdx
          lag_samples := lag
          peakSq := peakSq
          E_tx := eTx
          E_rx_seg := eSeg
          signalPower := signalPower
          noisePower := noisePower
          snrArg := max eps12 (signalPower / (noisePower + eps12)) }

/-! ## Support lemmas: receive loop -/

theorem foldl_rxStep_length {α : Type} :
    ∀ (outcomes : List (RxOutcome α)) (init : List α),
      (outcomes.foldl rxStep init).length
        = init.length + (outcomes.map validCount).sum
  | [], init => by simp
  | o :: os, init => by
      have ih := foldl_rxStep_length os (rxStep init o)
      simp only [List.foldl_cons, List.map_cons, List.sum_cons, ih]
      cases o <;> simp [rxStep, validCount] <;> omega

theorem foldl_rxStep_append_only {α : Type} :
    ∀ (outcomes : List (RxOutcome α)) (init : List α),
      ∃ t, outcomes.foldl rxStep init = init ++ t
  | [], init => ⟨[], by simp⟩
  | o :: os, init => by
      obtain ⟨t, ht⟩ := foldl_rxStep_append_only os (rxStep init o)
      cases o with
      | recvExc => exact ⟨t, by simpa [rxStep] using ht⟩
      | mdErr r => exact ⟨t, by simpa [rxStep] using ht⟩
      | good r =>
          refine ⟨r ++ t, ?_⟩
          simp only [List.foldl_cons]
          rw [ht]
          simp [rxStep]

/-- C7: after any sequence of receive iterations, the capture sink's
byte length is the per-sample byte width (8, `complex64`) times the sum
of the valid-sample counts of the successful no-error iterations; an
error-indicator iteration contributes zero bytes (its samples are
discarded), and the sink only ever grows by appending — it is never
rewound or truncated. -/
theorem C7_capture_sink_append_only {α : Type} (outcomes : List (RxOutcome α)) :
    sinkBytes (rxRun outcomes) = bytesPerSample * (outcomes.map validCount).sum
    ∧ ∀ more : List (RxOutcome α), ∃ t, rxRun (outcomes ++ more) = rxRun outcomes ++ t := by
  constructor
  · simp [sinkBytes, rxRun, foldl_rxStep_length]
  · intro more
    have h := foldl_rxStep_append_only more (rxRun outcomes)
    simpa [rxRun, List.foldl_append] using h

/-! ## Claims about the Sample Source -/

/-- C9: a missing path yields the FileNotFound error for every format;
for format sc16 (interleaved int16) the load fails with a
FormatError-kind error (`ValueError`) exactly when the file holds an
odd count of 16-bit values (`np.fromfile` reads `len / 2` of them); an
existing fc32 file always loads, and an existing sc16 file with an even
count of 16-bit values loads without error.  `main` (lines 162-175)
runs `load_iq_file` and exits on failure before any stream object
exists, so the failure precedes all streaming. -/
theorem C9_load_error_kinds (bytes : List ℕ) :
    (∀ fmt, load_iq_file false fmt bytes = .error .fileNotFound)
    ∧ ((∃ msg, load_iq_file true "sc16" bytes = .error (.valueError msg))
        ↔ (bytes.length / 2) % 2 = 1)
    ∧ (∃ buf, load_iq_file true "fc32" bytes = .ok buf)
    ∧ ((bytes.length / 2) % 2 = 0 → ∃ buf, load_iq_file true "sc16" bytes = .ok buf) := by
  refine ⟨fun fmt => by simp [load_iq_file],
    ?_, ⟨(chunks8 bytes).map complex64OfGroup, by simp [load_iq_file]⟩, ?_⟩
  · rw [load_iq_file]
    simp only [int16sOfBytes_length]
    by_cases h : (bytes.length / 2) % 2 = 1
    · simp [h]
    · simp [h]
  · intro h
    rw [load_iq_file]
    simp only [int16sOfBytes_length]
    simp [h]

theorem C9_load_error_kinds_witness :
    (([0, 0, 0, 0] : List ℕ).length / 2) % 2 = 0
    ∧ ∃ buf, load_iq_file true "sc16" [0, 0, 0, 0] = .ok buf :=
  ⟨by decide, (C9_load_error_kinds [0, 0, 0, 0]).2.2.2 (by decide)⟩

/-- C10: loading an existing file as fc32 (native complex float) never
fails, whatever the byte length: it returns `floor (bytes / 8)` complex
samples, the trailing bytes of an incomplete 8-byte sample being
silently dropped; the even-count check exists only on the sc16 path. -/
theorem C10_fc32_no_length_check (bytes : List ℕ) :
    ∃ buf, load_iq_file true "fc32" bytes = .ok buf
      ∧ buf.length = bytes.length / 8 := by
  refine ⟨(chunks8 bytes).map complex64OfGroup, by simp [load_iq_file], ?_⟩
  simp [chunks8_length]

/-! ## Support lemmas: transmit loop -/

theorem txStep_not_running {α : Type} (loopFile : Bool) (chunkSamples : ℕ)
    (data : List α) (stop fail : ℕ → Bool) (s : TxState α)
    (h : s.phase ≠ .running) :
    txStep loopFile chunkSamples data stop fail s = s := by
  simp [txStep, h]

theorem txLoop_not_running {α : Type} (loopFile : Bool) (chunkSamples : ℕ)
    (data : List α) (stop fail : ℕ → Bool) :
    ∀ (fuel : ℕ) (s : TxState α), s.phase ≠ .running →
      txLoop loopFile chunkSamples data stop fail fuel s = s
  | 0, s, _ => rfl
  | fuel + 1, s, h => by
      rw [txLoop, txStep_not_running _ _ _ _ _ _ h]
      exact txLoop_not_running _ _ _ _ _ fuel s h

/-! ## Claim C5: behaviour of the transmit loop on a send failure

In the source the `try` of `tx_thread_fn` wraps the whole `while` loop
(lines 64-86), so an exception raised by `tx_stream.send` leaves the
loop: it is printed once by the `except` (line 87-88) and control moves
to the `finally` flush.  The loop does NOT continue with its next
iteration. -/

/-- C5 counterexample: buffer of four samples, chunk size 2, stop never
requested, and the second call to `send` (index 1) raises.  The
transmit loop terminates on the exception path with the read cursor at
2 of 4 — the buffer is not exhausted and no stop was observed, yet the
loop aborted, contradicting the claim that a transfer failure lets the
loop continue with its next iteration. -/
theorem C5_counterexample :
    (txLoop false 2 ([10, 20, 30, 40] : List ℤ) (fun _ => false)
        (fun k => k == 1) 10 txInit).phase = .excepted
    ∧ (txLoop false 2 ([10, 20, 30, 40] : List ℤ) (fun _ => false)
        (fun k => k == 1) 10 txInit).idx = 2
    ∧ (txLoop false 2 ([10, 20, 30, 40] : List ℤ) (fun _ => false)
        (fun k => k == 1) 10 txInit).sent.length = 1
    ∧ ([10, 20, 30, 40] : List ℤ).length = 4 := by
  decide

/-- C5 amended: a transfer failure mid-stream terminates the transmit
loop at once.  The failing iteration emits nothing, the loop state
moves to the exception phase, and the loop makes no further progress
for any remaining fuel (the failure is logged by the `except` and the
session proceeds directly to the end-of-burst flush). -/
theorem C5_amended_send_failure_aborts {α : Type} (loopFile : Bool)
    (chunkSamples : ℕ) (data : List α) (stop fail : ℕ → Bool) :
    (∀ s : TxState α, s.phase = .running → stop s.iter = false →
      ¬(data.length - s.idx = 0 ∧ loopFile = false) →
      fail s.sent.length = true →
      txStep loopFile chunkSamples data stop fail s = { s with phase := .excepted })
    ∧ (∀ (fuel : ℕ) (s : TxState α), s.phase = .excepted →
        txLoop loopFile chunkSamples data stop fail fuel s = s) := by
  constructor
  · intro s hrun hstop hnobreak hfail
    rw [txStep]
    simp only [hrun, hstop, hfail]
    simp [hnobreak]
  · intro fuel s h
    exact txLoop_not_running _ _ _ _ _ fuel s (by simp [h])

theorem C5_amended_send_failure_aborts_witness :
    txStep false 2 ([10, 20, 30, 40] : List ℤ) (fun _ => false) (fun k => k == 1)
        ⟨2, false, [⟨[10, 20], true, false⟩], 1, .running⟩
      = ⟨2, false, [⟨[10, 20], true, false⟩], 1, .excepted⟩ :=
  (C5_amended_send_failure_aborts false 2 ([10, 20, 30, 40] : List ℤ)
    (fun _ => false) (fun k => k == 1)).1
    ⟨2, false, [⟨[10, 20], true, false⟩], 1, .running⟩
    (by decide) (by decide) (by decide) (by decide)

/-! ## Claim C3: burst metadata invariant -/

/-- Invariant relating `md.start_of_burst` (the `first` flag) to the
chunks successfully transmitted so far. -/
def txMetaInv {α : Type} (s : TxState α) : Prop :=
  (s.first = true ↔ s.sent = [])
  ∧ (∀ c ∈ s.sent, c.eob = false)
  ∧ (∀ c cs, s.sent = c :: cs → c.sob = true ∧ ∀ c2 ∈ cs, c2.sob = false)

theorem txMetaInv_init {α : Type} : txMetaInv (txInit (α := α)) := by
  refine ⟨by simp [txInit], by simp [txInit], ?_⟩
  intro c cs h
  simp [txInit] at h

theorem txStep_metaInv {α : Type} (loopFile : Bool) (chunkSamples : ℕ)
    (data : List α) (stop fail : ℕ → Bool) (s : TxState α)
    (hinv : txMetaInv s) :
    txMetaInv (txStep loopFile chunkSamples data stop fail s) := by
  obtain ⟨hfirst, heob, hsob⟩ := hinv
  by_cases hrun : s.phase = .running
  case neg =>
    rw [txStep_not_running _ _ _ _ _ _ hrun]
    exact ⟨hfirst, heob, hsob⟩
  by_cases hstop : stop s.iter = true
  case pos =>
    rw [txStep]
    simp only [hrun, hstop]
    simp
    exact ⟨hfirst, heob, hsob⟩
  by_cases hbreak : data.length - s.idx = 0 ∧ loopFile = false
  case pos =>
    rw [txStep]
    simp only [hrun, hstop, hbreak]
    simp [hbreak]
    exact ⟨hfirst, heob, hsob⟩
  by_cases hfail : fail s.sent.length = true
  case pos =>
    rw [txStep]
    simp only [hrun, hstop, hfail]
    simp [hbreak]
    exact ⟨hfirst, heob, hsob⟩
  -- successful send: a chunk carrying sob = s.first, eob = false is appended
  rw [txStep]
  simp only [hrun, hstop, hfail]
  simp [hbreak, hfail]
  refine ⟨by simp, ?_, ?_⟩
  · intro c hc
    rcases List.mem_append.mp hc with h | h
    · exact heob c h
    · simp only [List.mem_singleton] at h
      rw [h]
  · intro c cs h
    cases hsent : s.sent with
    | nil =>
        rw [hsent] at h
        simp only [List.nil_append, List.cons.injEq] at h
        have hf : s.first = true := hfirst.mpr hsent
        constructor
        · rw [← h.1, hf]
        · intro c2 hc2
          rw [← h.2] at hc2
          simp at hc2
    | cons c0 cs0 =>
        rw [hsent] at h
        rw [List.cons_append, List.cons.injEq] at h
        obtain ⟨hc0, hcs0⟩ := hsob c0 cs0 hsent
        constructor
        · rw [← h.1]
          exact hc0
        · intro c2 hc2
          rw [← h.2] at hc2
          rcases List.mem_append.mp hc2 with h2 | h2
          · exact hcs0 c2 h2
          · simp only [List.mem_singleton] at h2
            have hf : s.first = false := by
              cases hfv : s.first
              · rfl
              · exact absurd (hfirst.mp hfv) (by simp [hsent])
            rw [h2, hf]

theorem txLoop_metaInv {α : Type} (loopFile : Bool) (chunkSamples : ℕ)
    (data : List α) (stop fail : ℕ → Bool) :
    ∀ (fuel : ℕ) (s : TxState α), txMetaInv s →
      txMetaInv (txLoop loopFile chunkSamples data stop fail fuel s)
  | 0, _, hinv => hinv
  | fuel + 1, s, hinv =>
      txLoop_metaInv loopFile chunkSamples data stop fail fuel _
        (txStep_metaInv loopFile chunkSamples data stop fail s hinv)

/-- C3: in every transmit session that ends (under a transport that
accepts the final flush), exactly one transmitted chunk carries
start-of-burst=true and it is the first one (every subsequent chunk
carries start-of-burst=false); and exactly one chunk carries
end-of-burst=true — the terminal zero-length flush emitted by the
`finally` block, which runs on every termination path of the loop
(buffer exhaustion, stop request, or a send exception). -/
theorem C3_burst_metadata {α : Type} (loopFile : Bool) (chunkSamples : ℕ)
    (data : List α) (stop fail : ℕ → Bool) (fuel : ℕ)
    (hdone : (txLoop loopFile chunkSamples data stop fail fuel txInit).phase ≠ .running) :
    (txSession loopFile chunkSamples data stop fail fuel true).countP (fun c => c.sob) = 1
    ∧ (∃ c rest, txSession loopFile chunkSamples data stop fail fuel true = c :: rest
        ∧ c.sob = true ∧ ∀ c2 ∈ rest, c2.sob = false)
    ∧ (txSession loopFile chunkSamples data stop fail fuel true).countP (fun c => c.eob) = 1
    ∧ (∃ sb, (txSession loopFile chunkSamples data stop fail fuel true).getLast?
        = some ⟨[], sb, true⟩) := by
  clear hdone
  obtain ⟨hfirst, heob, hsob⟩ :=
    txLoop_metaInv loopFile chunkSamples data stop fail fuel txInit txMetaInv_init
  set s := txLoop loopFile chunkSamples data stop fail fuel txInit with hs
  have hout : txSession loopFile chunkSamples data stop fail fuel true
      = s.sent ++ [⟨[], s.first, true⟩] := by
    simp [txSession, ← hs]
  rw [hout]
  have heobz : s.sent.countP (fun c => c.eob) = 0 := by
    rw [List.countP_eq_zero]
    intro c hc
    simp [heob c hc]
  cases hsent : s.sent with
  | nil =>
      have hf : s.first = true := hfirst.mpr hsent
      refine ⟨?_, ⟨⟨[], s.first, true⟩, [], by simp, by simp [hf], by simp⟩, ?_, ⟨s.first, by simp⟩⟩
      · simp [List.countP_cons, hf]
      · simp [List.countP_cons]
  | cons c0 cs0 =>
      obtain ⟨hc0, hcs0⟩ := hsob c0 cs0 hsent
      have hf : s.first = false := by
        cases hfv : s.first
        · rfl
        · exact absurd (hfirst.mp hfv) (by simp [hsent])
      have hcsz : cs0.countP (fun c => c.sob) = 0 := by
        rw [List.countP_eq_zero]
        intro c hc
        simp [hcs0 c hc]
      refine ⟨?_, ⟨c0, cs0 ++ [⟨[], s.first, true⟩], by simp, hc0, ?_⟩, ?_,
        ⟨s.first, List.getLast?_concat (c0 :: cs0)⟩⟩
      · rw [List.cons_append, List.countP_cons, List.countP_append, List.countP_cons]
        simp [hc0, hf, hcsz]
      · intro c2 hc2
        rcases List.mem_append.mp hc2 with h2 | h2
        · exact hcs0 c2 h2
        · simp only [List.mem_singleton] at h2
          rw [h2, hf]
      · rw [List.cons_append, List.countP_cons, List.countP_append, List.countP_cons]
        have : cs0.countP (fun c => c.eob) = 0 := by
          rw [List.countP_eq_zero]
          intro c hc
          have := heob c (by rw [hsent]; exact List.mem_cons_of_mem _ hc)
          simp [this]
        have h0 : c0.eob = false := heob c0 (by rw [hsent]; exact List.mem_cons_self _ _)
        simp [h0, this]

theorem C3_burst_metadata_witness :
    ∃ sb, (txSession false 2 ([5, 6, 7] : List ℤ) (fun _ => false) (fun _ => false) 4
      true).getLast? = some ⟨[], sb, true⟩ :=
  (C3_burst_metadata false 2 ([5, 6, 7] : List ℤ) (fun _ => false) (fun _ => false) 4
    (by decide)).2.2.2

/-! ## Claim C2: chunking of the transmit buffer -/

theorem chunksOf_nil {α : Type} (c : ℕ) : chunksOf c ([] : List α) = [] := by
  rw [chunksOf]

theorem chunksOf_cons {α : Type} (c : ℕ) (x : α) (xs : List α) :
    chunksOf (c + 1) (x :: xs)
      = ((x :: xs).take (c + 1)) :: chunksOf (c + 1) ((x :: xs).drop (c + 1)) := by
  rw [chunksOf]

theorem chunksOf_eq_nil_iff {α : Type} (c : ℕ) (l : List α) :
    chunksOf (c + 1) l = [] ↔ l = [] := by
  cases l with
  | nil => simp [chunksOf_nil]
  | cons x xs => simp [chunksOf_cons]

theorem chunksOf_flatten {α : Type} (c : ℕ) :
    ∀ l : List α, (chunksOf (c + 1) l).flatten = l
  | [] => by simp [chunksOf_nil]
  | x :: xs => by
      rw [chunksOf_cons]
      have ih := chunksOf_flatten c ((x :: xs).drop (c + 1))
      simp only [List.flatten_cons, ih, List.take_append_drop]
termination_by l => l.length
decreasing_by simp; omega

theorem chunksOf_mem_length {α : Type} (c : ℕ) :
    ∀ (l : List α), ∀ ch ∈ chunksOf (c + 1) l, ch.length ≤ c + 1
  | [] => by simp [chunksOf_nil]
  | x :: xs => by
      rw [chunksOf_cons]
      intro ch hch
      rcases List.mem_cons.mp hch with h | h
      · rw [h]
        simpa using List.length_take_le (c + 1) (x :: xs)
      · exact chunksOf_mem_length c ((x :: xs).drop (c + 1)) ch h
termination_by l => l.length
decreasing_by simp; omega

theorem chunksOf_getD_length {α : Type} (c : ℕ) :
    ∀ (l : List α) (i : ℕ), i + 1 < (chunksOf (c + 1) l).length →
      ((chunksOf (c + 1) l).getD i []).length = c + 1
  | [], i => by simp [chunksOf_nil]
  | x :: xs, 0 => by
      rw [chunksOf_cons]
      intro h
      have hne : chunksOf (c + 1) ((x :: xs).drop (c + 1)) ≠ [] := by
        intro hnil
        rw [hnil] at h
        simp at h
      have hdrop : (x :: xs).drop (c + 1) ≠ [] :=
        fun hnil => hne ((chunksOf_eq_nil_iff c _).mpr hnil)
      have hlen : c + 1 < (x :: xs).length := by
        by_contra hle
        push_neg at hle
        exact hdrop (List.drop_eq_nil_of_le hle)
      simp only [List.getD_cons_zero, List.length_take]
      omega
  | x :: xs, i + 1 => by
      rw [chunksOf_cons]
      intro h
      simp only [List.length_cons] at h
      have := chunksOf_getD_length c ((x :: xs).drop (c + 1)) i (by omega)
      simpa using this
termination_by l => l.length
decreasing_by simp; omega

theorem chunksOf_step {α : Type} (c : ℕ) (data : List α) (idx : ℕ)
    (h : data.length - idx ≠ 0) :
    chunksOf (c + 1) (data.drop idx)
      = ((data.drop idx).take (min (c + 1) (data.length - idx)))
        :: chunksOf (c + 1) (data.drop (idx + min (c + 1) (data.length - idx))) := by
  have hlen : (data.drop idx).length = data.length - idx := List.length_drop idx data
  have hne : data.drop idx ≠ [] := by
    intro hnil
    rw [hnil] at hlen
    simp at hlen
    omega
  obtain ⟨x, xs, hx⟩ := List.exists_cons_of_ne_nil hne
  have htake : (data.drop idx).take (min (c + 1) (data.length - idx))
      = (data.drop idx).take (c + 1) := by
    rw [List.take_eq_take]
    rw [hlen]
    omega
  have hdrop : data.drop (idx + min (c + 1) (data.length - idx))
      = (data.drop idx).drop (c + 1) := by
    rw [List.drop_drop]
    rcases le_or_lt (c + 1) (data.length - idx) with hle | hlt
    · have : min (c + 1) (data.length - idx) = c + 1 := by omega
      rw [this, Nat.add_comm]
    · have h1 : min (c + 1) (data.length - idx) = data.length - idx := by omega
      rw [h1]
      rw [List.drop_eq_nil_of_le (by omega), List.drop_eq_nil_of_le (by omega)]
  rw [htake, hdrop, hx, chunksOf_cons, ← hx]

theorem txLoop_nonloop_sent {α : Type} (c : ℕ) (data : List α) :
    ∀ (fuel : ℕ) (s : TxState α), s.phase = .running →
      data.length - s.idx < fuel →
      (txLoop false (c + 1) data (fun _ => false) (fun _ => false) fuel s).phase = .finished
      ∧ (txLoop false (c + 1) data (fun _ => false) (fun _ => false) fuel s).sent.map
            TxChunk.samples
          = s.sent.map TxChunk.samples ++ chunksOf (c + 1) (data.drop s.idx)
  | fuel + 1, s, hrun, hfuel => by
      rw [txLoop]
      by_cases hrem : data.length - s.idx = 0
      · have hstep : txStep false (c + 1) data (fun _ => false) (fun _ => false) s
            = { s with phase := .finished } := by
          rw [txStep]
          simp [hrun, hrem]
        rw [hstep, txLoop_not_running _ _ _ _ _ fuel _ (by simp)]
        refine ⟨rfl, ?_⟩
        rw [List.drop_eq_nil_of_le (by omega), chunksOf_nil, List.append_nil]
      · have hstep : txStep false (c + 1) data (fun _ => false) (fun _ => false) s
            = { idx := s.idx + min (c + 1) (data.length - s.idx)
                first := false
                sent := s.sent ++
                  [⟨(data.drop s.idx).take (min (c + 1) (data.length - s.idx)), s.first, false⟩]
                iter := s.iter + 1
                phase := .running } := by
          rw [txStep]
          simp [hrun, hrem]
        rw [hstep]
        have hlt : data.length - (s.idx + min (c + 1) (data.length - s.idx)) < fuel := by
          omega
        obtain ⟨hph, hsent⟩ := txLoop_nonloop_sent c data fuel
          { idx := s.idx + min (c + 1) (data.length - s.idx)
            first := false
            sent := s.sent ++
              [⟨(data.drop s.idx).take (min (c + 1) (data.length - s.idx)), s.first, false⟩]
            iter := s.iter + 1
            phase := .running } rfl hlt
        refine ⟨hph, ?_⟩
        rw [hsent]
        simp only [List.map_append, List.map_cons, List.map_nil]
        rw [chunksOf_step c data s.idx hrem]
        simp

/-- All samples handed to the transport so far, in emission order. -/
def txJoined {α : Type} (s : TxState α) : List α := (s.sent.map TxChunk.samples).flatten

/-- Invariant of the looping transmit loop: the emitted stream is a
prefix of the buffer repeated cyclically, and the read cursor agrees
with the emitted length modulo the buffer length. -/
def txLoopInv {α : Type} (data : List α) (s : TxState α) : Prop :=
  s.phase = .running ∧ s.idx ≤ data.length
  ∧ (txJoined s).length % data.length = s.idx % data.length
  ∧ ∀ g, g < (txJoined s).length → (txJoined s)[g]? = data[g % data.length]?

theorem txStep_loopInv {α : Type} (chunkSamples : ℕ) (data : List α)
    (s : TxState α) (hinv : txLoopInv data s) :
    txLoopInv data (txStep true chunkSamples data (fun _ => false) (fun _ => false) s) := by
  obtain ⟨hrun, hle, hmod, hget⟩ := hinv
  have hstep : txStep true chunkSamples data (fun _ => false) (fun _ => false) s
      = { idx := (if data.length - s.idx = 0 then 0 else s.idx)
            + min chunkSamples
              (data.length - (if data.length - s.idx = 0 then 0 else s.idx))
          first := false
          sent := s.sent ++
            [⟨(data.drop (if data.length - s.idx = 0 then 0 else s.idx)).take
                (min chunkSamples
                  (data.length - (if data.length - s.idx = 0 then 0 else s.idx))),
              s.first, false⟩]
          iter := s.iter + 1
          phase := .running } := by
    rw [txStep]
    simp [hrun]
  rw [hstep]
  set idx0 := if data.length - s.idx = 0 then 0 else s.idx with hidx0
  set csz := min chunkSamples (data.length - idx0) with hcsz
  set chunk := (data.drop idx0).take csz with hchunk
  have hidx0le : idx0 ≤ data.length := by
    rw [hidx0]
    split <;> omega
  have hidx0mod : idx0 % data.length = s.idx % data.length := by
    rw [hidx0]
    split
    · have : s.idx = data.length := by omega
      simp [this]
    · rfl
  have hchunklen : chunk.length = csz := by
    rw [hchunk, List.length_take, List.length_drop]
    omega
  have hjoined : ∀ t : TxState α,
      t.sent = s.sent ++ [⟨chunk, s.first, false⟩] → txJoined t = txJoined s ++ chunk := by
    intro t ht
    rw [txJoined, ht]
    simp [txJoined]
  have h2 : (txJoined s).length % data.length = idx0 % data.length := by
    rw [hmod, hidx0mod]
  refine ⟨rfl, by simp; omega, ?_, ?_⟩
  · rw [hjoined _ rfl]
    simp only [List.length_append, hchunklen]
    show ((txJoined s).length + csz) % data.length = (idx0 + csz) % data.length
    rw [Nat.add_mod, h2, ← Nat.add_mod]
  · rw [hjoined _ rfl]
    intro g hg
    simp only [List.length_append, hchunklen] at hg
    rcases lt_or_ge g (txJoined s).length with hlt | hge
    · rw [List.getElem?_append, if_pos hlt]
      exact hget g hlt
    · rw [List.getElem?_append, if_neg (by omega)]
      have hj : g - (txJoined s).length < csz := by omega
      rw [hchunk, List.getElem?_take, if_pos hj, List.getElem?_drop]
      have hcszle : csz ≤ data.length - idx0 := by
        rw [hcsz]
        omega
      have hlt2 : idx0 + (g - (txJoined s).length) < data.length := by omega
      have hmodeq : g % data.length = idx0 + (g - (txJoined s).length) := by
        have hg2 : g = (txJoined s).length + (g - (txJoined s).length) := by omega
        calc g % data.length
            = ((txJoined s).length + (g - (txJoined s).length)) % data.length := by
              rw [← hg2]
          _ = ((txJoined s).length % data.length
                + (g - (txJoined s).length) % data.length) % data.length :=
              Nat.add_mod _ _ _
          _ = (idx0 % data.length
                + (g - (txJoined s).length) % data.length) % data.length := by
              rw [h2]
          _ = (idx0 + (g - (txJoined s).length)) % data.length :=
              (Nat.add_mod _ _ _).symm
          _ = idx0 + (g - (txJoined s).length) := Nat.mod_eq_of_lt hlt2
      rw [hmodeq]

theorem txLoop_loopInv {α : Type} (chunkSamples : ℕ) (data : List α) :
    ∀ (fuel : ℕ) (s : TxState α), txLoopInv data s →
      txLoopInv data (txLoop true chunkSamples data (fun _ => false) (fun _ => false) fuel s)
  | 0, _, hinv => hinv
  | fuel + 1, s, hinv =>
      txLoop_loopInv chunkSamples data fuel _ (txStep_loopInv chunkSamples data s hinv)

theorem txLoopInv_init {α : Type} (data : List α) : txLoopInv data (txInit (α := α)) := by
  refine ⟨rfl, by simp [txInit], by simp [txInit, txJoined], ?_⟩
  intro g hg
  simp [txInit, txJoined] at hg

/-- C2: with no stop request and no transport failure, (a) a full
non-looping pass emits chunks whose concatenation is exactly the
buffer, every chunk at most `C` samples and all but the last exactly
`C`; (b) in looping mode the sample emitted at global offset `g` equals
`buffer[g % L]` — no sample is skipped or duplicated across a wrap. -/
theorem C2_chunking {α : Type} (data : List α) (chunkSamples : ℕ)
    (hL : 0 < data.length) (hC : 0 < chunkSamples) :
    (∀ fuel, data.length < fuel →
      ((txLoop false chunkSamples data (fun _ => false) (fun _ => false) fuel
          txInit).sent.map TxChunk.samples).flatten = data
      ∧ (∀ ch ∈ (txLoop false chunkSamples data (fun _ => false) (fun _ => false) fuel
          txInit).sent, ch.samples.length ≤ chunkSamples)
      ∧ (∀ i, i + 1 < (txLoop false chunkSamples data (fun _ => false) (fun _ => false)
            fuel txInit).sent.length →
          (((txLoop false chunkSamples data (fun _ => false) (fun _ => false) fuel
            txInit).sent.map TxChunk.samples).getD i []).length = chunkSamples))
    ∧ (∀ fuel g, g < (txJoined (txLoop true chunkSamples data (fun _ => false)
          (fun _ => false) fuel txInit)).length →
        (txJoined (txLoop true chunkSamples data (fun _ => false) (fun _ => false) fuel
          txInit))[g]? = data[g % data.length]?) := by
  obtain ⟨c, rfl⟩ : ∃ c, chunkSamples = c + 1 := ⟨chunkSamples - 1, by omega⟩
  constructor
  · intro fuel hfuel
    obtain ⟨hph, hsent⟩ := txLoop_nonloop_sent c data fuel txInit rfl (by simp [txInit]; omega)
    have hsent' : (txLoop false (c + 1) data (fun _ => false) (fun _ => false) fuel
        txInit).sent.map TxChunk.samples = chunksOf (c + 1) data := by
      rw [hsent]
      simp [txInit]
    refine ⟨?_, ?_, ?_⟩
    · rw [hsent', chunksOf_flatten]
    · intro ch hch
      have : ch.samples ∈ chunksOf (c + 1) data := by
        rw [← hsent']
        exact List.mem_map_of_mem TxChunk.samples hch
      exact chunksOf_mem_length c data ch.samples this
    · intro i hi
      rw [hsent']
      apply chunksOf_getD_length
      rw [← hsent']
      simpa using hi
  · intro fuel
    exact (txLoop_loopInv (c + 1) data fuel txInit (txLoopInv_init data)).2.2.2

theorem C2_chunking_witness :
    ((txLoop false 2 ([1, 2, 3] : List ℤ) (fun _ => false) (fun _ => false) 4
      txInit).sent.map TxChunk.samples).flatten = [1, 2, 3] :=
  ((C2_chunking ([1, 2, 3] : List ℤ) 2 (by decide) (by decide)).1 4 (by decide)).1

/-! ## Support lemmas: correlation analyzer -/

/-- The result record assembled by the success branch of
`analyze_correlation`, in terms of the named pipeline functions. -/
def analyzeResultOf (tx rx : List CQ) : AnalysisResult :=
  { peak_index := peakIdxOf tx rx
    lag_samples := lagOf tx rx
    peakSq := CQ.normSq ((corrList tx rx).getD (peakIdxOf tx rx) 0)
    E_tx := energy tx
    E_rx_seg := energy (rxSegmentOf tx rx)
    signalPower := energy (rxSegmentOf tx rx) / ((max 1 (rxSegmentOf tx rx).length : ℕ) : ℚ)
    noisePower := energy (residualOf tx rx) / ((max 1 (residualOf tx rx).length : ℕ) : ℚ)
    snrArg := max eps12
      ((energy (rxSegmentOf tx rx) / ((max 1 (rxSegmentOf tx rx).length : ℕ) : ℚ))
        / (energy (residualOf tx rx) / ((max 1 (residualOf tx rx).length : ℕ) : ℚ) + eps12)) }

theorem analyze_correlation_eq (refCap searchCap : ℕ) (txSamples rxSamples : List CQ) :
    analyze_correlation refCap searchCap txSamples rxSamples
      = if (txSamples.take (min txSamples.length refCap)).length
            + (rxSamples.take (min rxSamples.length searchCap)).length ≤ 1
        then .error .emptyTransform
        else .ok (analyzeResultOf (txSamples.take (min txSamples.length refCap))
            (rxSamples.take (min rxSamples.length searchCap))) := by
  simp only [analyze_correlation, fft_xcorr]
  by_cases h : (txSamples.take (min txSamples.length refCap)).length
      + (rxSamples.take (min rxSamples.length searchCap)).length ≤ 1
  · rw [if_pos h, if_pos h]
  · rw [if_neg h, if_neg h]
    rfl

/-- `rx_segment` is always the window of at most `tx.length` samples
starting at `max(0, lag)`: the two branches of the source's `if`
coincide because a Python slice clips at the end of the array. -/
theorem rxSegmentOf_eq (tx rx : List CQ) :
    rxSegmentOf tx rx = (rx.drop (segStartOf tx rx)).take tx.length := by
  rw [rxSegmentOf]
  split
  · rfl
  · next h =>
      push_neg at h
      have hlen : (rx.drop (segStartOf tx rx)).length ≤ tx.length := by
        rw [List.length_drop]
        omega
      rw [List.take_of_length_le hlen]

theorem npArgmaxSq_lt_length : ∀ l : List CQ, l ≠ [] → npArgmaxSq l < l.length
  | [], h => absurd rfl h
  | x :: xs, _ => by
      rw [npArgmaxSq]
      split
      · simp
      · next hx =>
          have hxs : xs ≠ [] := by
            intro hnil
            rw [hnil] at hx
            exact hx (by simpa [maxSq] using CQ.normSq_nonneg x)
          have := npArgmaxSq_lt_length xs hxs
          simp only [List.length_cons]
          omega

theorem maxSq_nonneg : ∀ l : List CQ, 0 ≤ maxSq l
  | [] => le_refl 0
  | x :: xs => le_trans (maxSq_nonneg xs) (le_max_right _ _)

theorem normSq_getD_le_maxSq : ∀ (l : List CQ) (i : ℕ), i < l.length →
    CQ.normSq (l.getD i 0) ≤ maxSq l
  | x :: xs, 0, _ => by
      simpa [maxSq] using le_max_left (CQ.normSq x) (maxSq xs)
  | x :: xs, i + 1, h => by
      have := normSq_getD_le_maxSq xs i (by simpa using h)
      simp only [List.getD_cons_succ, maxSq]
      exact le_trans this (le_max_right _ _)

theorem normSq_getD_argmax : ∀ l : List CQ, l ≠ [] →
    CQ.normSq (l.getD (npArgmaxSq l) 0) = maxSq l
  | [], h => absurd rfl h
  | x :: xs, _ => by
      rw [npArgmaxSq]
      split
      · next hx =>
          simp only [List.getD_cons_zero, maxSq]
          exact (max_eq_left hx).symm
      · next hx =>
          have hxs : xs ≠ [] := by
            intro hnil
            rw [hnil] at hx
            exact hx (by simpa [maxSq] using CQ.normSq_nonneg x)
          have ih := normSq_getD_argmax xs hxs
          simp only [List.getD_cons_succ, maxSq, ih]
          push_neg at hx
          exact (max_eq_right hx.le).symm

theorem csum_eq_zero : ∀ l : List CQ, (∀ x ∈ l, x = 0) → csum l = 0
  | [], _ => rfl
  | x :: xs, h => by
      rw [csum_cons, h x (List.mem_cons_self x xs), csum_eq_zero xs
        (fun y hy => h y (List.mem_cons_of_mem x hy))]
      simp

theorem circCorr_nil_left (b : List CQ) (n m : ℕ) : circCorr [] b n m = 0 := by
  rw [circCorr]
  apply csum_eq_zero
  intro x hx
  simp only [List.mem_map] at hx
  obtain ⟨q, _, hq⟩ := hx
  simp [← hq, List.getD_nil]

theorem circCorr_nil_right (a : List CQ) (n m : ℕ) : circCorr a [] n m = 0 := by
  rw [circCorr]
  apply csum_eq_zero
  intro x hx
  simp only [List.mem_map] at hx
  obtain ⟨q, _, hq⟩ := hx
  simp [← hq, List.getD_nil]

theorem corrList_zero_of_empty (tx rx : List CQ) (h : tx = [] ∨ rx = []) :
    ∀ x ∈ corrList tx rx, x = 0 := by
  intro x hx
  rw [corrList] at hx
  simp only [List.mem_map] at hx
  obtain ⟨m, _, hm⟩ := hx
  rcases h with h | h <;> rw [h] at hm
  · rw [← hm, circCorr_nil_left]
  · rw [← hm, circCorr_nil_right]

theorem maxSq_of_zeros : ∀ l : List CQ, (∀ x ∈ l, x = 0) → maxSq l = 0
  | [], _ => rfl
  | x :: xs, h => by
      rw [maxSq, h x (List.mem_cons_self x xs), maxSq_of_zeros xs
        (fun y hy => h y (List.mem_cons_of_mem x hy))]
      simp

theorem npArgmaxSq_of_zeros (l : List CQ) (h : ∀ x ∈ l, x = 0) : npArgmaxSq l = 0 := by
  cases l with
  | nil => rfl
  | cons x xs =>
      rw [npArgmaxSq, if_pos]
      rw [maxSq_of_zeros xs (fun y hy => h y (List.mem_cons_of_mem x hy))]
      exact CQ.normSq_nonneg x

theorem getD_of_zeros (l : List CQ) (h : ∀ x ∈ l, x = 0) (i : ℕ) : l.getD i 0 = 0 := by
  rcases lt_or_ge i l.length with hi | hi
  · rw [List.getD_eq_getElem l 0 hi]
    exact h _ (List.getElem_mem hi)
  · exact List.getD_eq_default l 0 (by omega)

/-! ## Claim C4: degenerate (empty) analysis inputs -/

/-- C4 counterexample: with `ref_cap = search_cap = 1`, a one-sample
reference and an empty capture, the truncated captured buffer is empty,
yet `analyze_correlation` raises — `np.log2(1 + 0 - 1)` is `-inf` and
`int(-inf)` raises `OverflowError` — instead of returning zero-like
metrics.  This refutes the claim that the analyzer never raises when a
truncated buffer is empty. -/
theorem C4_counterexample :
    analyze_correlation 1 1 [⟨1, 0⟩] [] = .error .emptyTransform := by
  rw [analyze_correlation_eq]
  norm_num

/-- C4 amended: the analyzer raises exactly when the two truncated
buffers hold at most one sample in total; whenever one truncated buffer
is empty but the other holds at least two samples, it does not raise
and returns zero/neutral metrics (zero peak magnitude, zero normalized
peak, zero signal and noise power, and the floored SNR argument
`1e-12`, i.e. the -120 dB floor). -/
theorem C4_amended_analysis_degeneracy (refCap searchCap : ℕ)
    (txSamples rxSamples : List CQ) :
    ((analyze_correlation refCap searchCap txSamples rxSamples).isOk = false
      ↔ min txSamples.length refCap + min rxSamples.length searchCap ≤ 1)
    ∧ ((txSamples.take (min txSamples.length refCap) = []
          ∨ rxSamples.take (min rxSamples.length searchCap) = []) →
        2 ≤ min txSamples.length refCap + min rxSamples.length searchCap →
        ∃ r, analyze_correlation refCap searchCap txSamples rxSamples = .ok r
          ∧ r.peakSq = 0 ∧ peak_value r = 0 ∧ norm_peak r = 0
          ∧ r.signalPower = 0 ∧ r.noisePower = 0 ∧ r.snrArg = eps12) := by
  have hlen1 : (txSamples.take (min txSamples.length refCap)).length
      = min txSamples.length refCap := by
    rw [List.length_take]
    omega
  have hlen2 : (rxSamples.take (min rxSamples.length searchCap)).length
      = min rxSamples.length searchCap := by
    rw [List.length_take]
    omega
  constructor
  · rw [analyze_correlation_eq]
    by_cases h : min txSamples.length refCap + min rxSamples.length searchCap ≤ 1
    · rw [if_pos (by omega)]
      simp [Except.isOk, Except.toBool, h]
    · rw [if_neg (by omega)]
      simp [Except.isOk, Except.toBool, h]
  · intro hemp hbig
    have hzero : ∀ x ∈ corrList (txSamples.take (min txSamples.length refCap))
        (rxSamples.take (min rxSamples.length searchCap)), x = 0 :=
      corrList_zero_of_empty _ _ hemp
    have hpk : (analyzeResultOf (txSamples.take (min txSamples.length refCap))
        (rxSamples.take (min rxSamples.length searchCap))).peakSq = 0 := by
      show CQ.normSq ((corrList _ _).getD (peakIdxOf _ _) 0) = 0
      rw [getD_of_zeros _ hzero]
      simp
    have hseg : rxSegmentOf (txSamples.take (min txSamples.length refCap))
        (rxSamples.take (min rxSamples.length searchCap)) = [] := by
      rcases hemp with h | h
      · rw [rxSegmentOf_eq, h]
        simp
      · rw [rxSegmentOf_eq, h]
        simp
    refine ⟨analyzeResultOf (txSamples.take (min txSamples.length refCap))
      (rxSamples.take (min rxSamples.length searchCap)), ?_, hpk, ?_, ?_, ?_, ?_, ?_⟩
    · rw [analyze_correlation_eq, if_neg (by omega)]
    · rw [peak_value, hpk]
      simp
    · rw [norm_peak, peak_value, hpk]
      simp
    · show energy (rxSegmentOf _ _) / _ = 0
      rw [hseg]
      simp [energy]
    · show energy (residualOf _ _) / _ = 0
      rw [residualOf, hseg]
      simp [energy]
    · show max eps12 _ = eps12
      rw [residualOf, hseg]
      simp [energy, eps12]

theorem C4_amended_analysis_degeneracy_witness :
    (([] : List CQ).take (min ([] : List CQ).length 5) = []
      ∨ ([⟨1, 0⟩, ⟨2, 0⟩] : List CQ).take (min ([⟨1, 0⟩, ⟨2, 0⟩] : List CQ).length 5) = [])
    ∧ ∃ r, analyze_correlation 5 5 ([] : List CQ) ([⟨1, 0⟩, ⟨2, 0⟩] : List CQ) = .ok r
        ∧ r.peakSq = 0 ∧ peak_value r = 0 ∧ norm_peak r = 0
        ∧ r.signalPower = 0 ∧ r.noisePower = 0 ∧ r.snrArg = eps12 :=
  ⟨Or.inl rfl, (C4_amended_analysis_degeneracy 5 5 [] [⟨1, 0⟩, ⟨2, 0⟩]).2
    (Or.inl rfl) (by norm_num)⟩

/-! ## Claim C6: the SNR estimate and window alignment -/

/-- C6 counterexample: with reference = captured = three unit samples
the estimated lag is negative (−2, the missing-roll artefact of the
correlation), but the captured window used for the SNR residual starts
at index `max(0, lag) = 0`, not at the estimated lag: for negative lags
the window is not aligned at the estimated lag, refuting the claim as
stated "for every estimated lag (including negative lags)". -/
theorem C6_counterexample :
    analyze_correlation 100000 1000000 [⟨1, 0⟩, ⟨1, 0⟩, ⟨1, 0⟩] [⟨1, 0⟩, ⟨1, 0⟩, ⟨1, 0⟩]
      = .ok (analyzeResultOf [⟨1, 0⟩, ⟨1, 0⟩, ⟨1, 0⟩] [⟨1, 0⟩, ⟨1, 0⟩, ⟨1, 0⟩])
    ∧ (analyzeResultOf [⟨1, 0⟩, ⟨1, 0⟩, ⟨1, 0⟩] [⟨1, 0⟩, ⟨1, 0⟩, ⟨1, 0⟩]).lag_samples = -2
    ∧ segStartOf [⟨1, 0⟩, ⟨1, 0⟩, ⟨1, 0⟩] [⟨1, 0⟩, ⟨1, 0⟩, ⟨1, 0⟩] = 0
    ∧ ((0 : ℤ) ≠ -2) := by
  have hlag : lagOf [⟨1, 0⟩, ⟨1, 0⟩, ⟨1, 0⟩] [⟨1, 0⟩, ⟨1, 0⟩, ⟨1, 0⟩] = -2 := by
    have h5 : fftSize 5 = 8 := by simp [fftSize, Nat.clog]
    have hr8 : List.range 8 = [0, 1, 2, 3, 4, 5, 6, 7] := rfl
    have hr5 : List.range 5 = [0, 1, 2, 3, 4] := rfl
    simp only [lagOf, peakIdxOf, corrList, List.length_cons, List.length_nil]
    norm_num [h5, hr5, hr8, circCorr, csum, List.getD, npArgmaxSq, maxSq]
  refine ⟨?_, hlag, ?_, by decide⟩
  · rw [analyze_correlation_eq]
    rfl
  · rw [segStartOf, hlag]
    rfl

/-- C6 amended: the SNR estimate uses the captured window starting at
`max(0, lag)` (clipped to the start of the capture for negative lags —
not lag-aligned in that case), of at most `len(reference)` samples and
clipped at the end of the capture; the residual subtracts the
length-matched prefix of the reference from that window; signal power
and noise power are the mean squared magnitudes of window and residual
(with a `max(1, size)` guard), and the reported SNR is
`10*log10(max(1e-12, signal/(noise + 1e-12)))`. -/
theorem C6_amended_snr_alignment (refCap searchCap : ℕ)
    (txSamples rxSamples tx rx : List CQ) (r : AnalysisResult)
    (htx : tx = txSamples.take (min txSamples.length refCap))
    (hrx : rx = rxSamples.take (min rxSamples.length searchCap))
    (h : analyze_correlation refCap searchCap txSamples rxSamples = .ok r) :
    r.lag_samples = lagOf tx rx
    ∧ segStartOf tx rx = (max 0 (lagOf tx rx)).toNat
    ∧ rxSegmentOf tx rx = (rx.drop (segStartOf tx rx)).take tx.length
    ∧ residualOf tx rx
        = List.zipWith (fun x y => x - y) (rxSegmentOf tx rx)
            (tx.take (rxSegmentOf tx rx).length)
    ∧ r.signalPower = energy (rxSegmentOf tx rx) / ((max 1 (rxSegmentOf tx rx).length : ℕ) : ℚ)
    ∧ r.noisePower = energy (residualOf tx rx) / ((max 1 (residualOf tx rx).length : ℕ) : ℚ)
    ∧ r.snrArg = max eps12 (r.signalPower / (r.noisePower + eps12))
    ∧ snr_db_est r = 10 * Real.logb 10 (r.snrArg : ℝ) := by
  subst htx hrx
  rw [analyze_correlation_eq] at h
  by_cases hc : (txSamples.take (min txSamples.length refCap)).length
      + (rxSamples.take (min rxSamples.length searchCap)).length ≤ 1
  · rw [if_pos hc] at h
    exact absurd h (by simp)
  · rw [if_neg hc] at h
    have hr : r = analyzeResultOf (txSamples.take (min txSamples.length refCap))
        (rxSamples.take (min rxSamples.length searchCap)) := by
      exact (Except.ok.injEq _ _).mp h.symm
    subst hr
    exact ⟨rfl, rfl, rxSegmentOf_eq _ _, rfl, rfl, rfl, rfl, rfl⟩

theorem C6_amended_snr_alignment_witness :
    (analyzeResultOf (([⟨1, 0⟩] : List CQ).take (min ([⟨1, 0⟩] : List CQ).length 5))
        (([⟨1, 0⟩] : List CQ).take (min ([⟨1, 0⟩] : List CQ).length 5))).snrArg
      = max eps12 ((analyzeResultOf (([⟨1, 0⟩] : List CQ).take (min ([⟨1, 0⟩] : List CQ).length 5))
          (([⟨1, 0⟩] : List CQ).take (min ([⟨1, 0⟩] : List CQ).length 5))).signalPower
        / ((analyzeResultOf (([⟨1, 0⟩] : List CQ).take (min ([⟨1, 0⟩] : List CQ).length 5))
          (([⟨1, 0⟩] : List CQ).take (min ([⟨1, 0⟩] : List CQ).length 5))).noisePower + eps12)) :=
  (C6_amended_snr_alignment 5 5 [⟨1, 0⟩] [⟨1, 0⟩] _ _ _ rfl rfl
    (by rw [analyze_correlation_eq]; rfl)).2.2.2.2.2.2.1

/-! ## Claim C8: the correlation self-test (identity case) -/

/-- C8 evaluation at the failing input: reference `R` = three unit
samples, captured = `R` preceded by `K = 2` zero samples (well within
the truncation caps).  The spec requires lag = K (±1) = 2±1 and the
source's own output label reads "Lag (samples, RX = TX shifted by)",
but the analyzer reports `lag_samples = 0 = K - (len(R) - 1)`: the
first-index convention of the retained circular correlation is not
compensated (no roll/fftshift), so the reported lag is off by
`len(R) - 1`, beyond the one-sample tolerance. -/
theorem C8_failing_input_eval :
    analyze_correlation 100000 1000000 [⟨1, 0⟩, ⟨1, 0⟩, ⟨1, 0⟩]
        [0, 0, ⟨1, 0⟩, ⟨1, 0⟩, ⟨1, 0⟩]
      = .ok (analyzeResultOf [⟨1, 0⟩, ⟨1, 0⟩, ⟨1, 0⟩] [0, 0, ⟨1, 0⟩, ⟨1, 0⟩, ⟨1, 0⟩])
    ∧ (analyzeResultOf [⟨1, 0⟩, ⟨1, 0⟩, ⟨1, 0⟩]
        [0, 0, ⟨1, 0⟩, ⟨1, 0⟩, ⟨1, 0⟩]).lag_samples = 0
    ∧ ¬(((0 : ℤ) - 2).natAbs ≤ 1) := by
  refine ⟨?_, ?_, by decide⟩
  · rw [analyze_correlation_eq]
    rfl
  · show lagOf [⟨1, 0⟩, ⟨1, 0⟩, ⟨1, 0⟩] [0, 0, ⟨1, 0⟩, ⟨1, 0⟩, ⟨1, 0⟩] = 0
    have h7 : fftSize 7 = 8 := by simp [fftSize, Nat.clog]
    have hr8 : List.range 8 = [0, 1, 2, 3, 4, 5, 6, 7] := rfl
    have hr7 : List.range 7 = [0, 1, 2, 3, 4, 5, 6] := rfl
    simp only [lagOf, peakIdxOf, corrList, List.length_cons, List.length_nil]
    norm_num [h7, hr7, hr8, circCorr, csum, List.getD, npArgmaxSq, maxSq]

/-! ## The discrete convolution theorem over `ℂ`

These lemmas justify the model of the FFT round trip: entry `m` of
`ifft(fft(b, n) * conj(fft(a, n)))` equals the circular
cross-correlation of the zero-padded inputs. -/

section DFT

open Complex Finset

theorem dftRoot_prim (n : ℕ) (hn : 0 < n) : IsPrimitiveRoot (dftRoot n) n := by
  rw [dftRoot]
  exact Complex.isPrimitiveRoot_exp n hn.ne'

theorem dftRoot_ne_zero (n : ℕ) : dftRoot n ≠ 0 := Complex.exp_ne_zero _

theorem dftRoot_eq_exp_mul_I (n : ℕ) :
    dftRoot n = Complex.exp (((2 * Real.pi / n : ℝ) : ℂ) * Complex.I) := by
  rw [dftRoot]
  congr 1
  push_cast
  ring

theorem abs_dftRoot (n : ℕ) : Complex.abs (dftRoot n) = 1 := by
  rw [dftRoot_eq_exp_mul_I]
  exact Complex.abs_exp_ofReal_mul_I _

theorem conj_dftRoot (n : ℕ) : (starRingEnd ℂ) (dftRoot n) = (dftRoot n)⁻¹ :=
  (Complex.inv_eq_conj (abs_dftRoot n)).symm

theorem dftRoot_pow_mod (n : ℕ) (hn : 0 < n) (e : ℕ) :
    dftRoot n ^ e = dftRoot n ^ (e % n) := by
  conv_lhs => rw [← Nat.div_add_mod e n]
  rw [pow_add, pow_mul, (dftRoot_prim n hn).pow_eq_one, one_pow, one_mul]

theorem dftRoot_geom_sel (n : ℕ) (hn : 0 < n) (p r : ℕ) (hp : p < n) (hr : r < n) :
    ∑ k ∈ Finset.range n, (dftRoot n ^ r * (dftRoot n ^ p)⁻¹) ^ k
      = if p = r then (n : ℂ) else 0 := by
  by_cases hpr : p = r
  · subst hpr
    rw [mul_inv_cancel₀ (pow_ne_zero p (dftRoot_ne_zero n))]
    simp
  · rw [if_neg hpr]
    set mu : ℂ := dftRoot n ^ r * (dftRoot n ^ p)⁻¹ with hmu
    have hmun : mu ^ n = 1 := by
      rw [hmu, mul_pow, inv_pow, ← pow_mul, ← pow_mul, Nat.mul_comm r n, Nat.mul_comm p n,
        pow_mul, pow_mul, (dftRoot_prim n hn).pow_eq_one, one_pow, one_pow, inv_one, mul_one]
    have hmu1 : mu ≠ 1 := by
      intro h1
      apply hpr
      rw [hmu, mul_inv_eq_one₀ (pow_ne_zero p (dftRoot_ne_zero n))] at h1
      exact (dftRoot_prim n hn).pow_inj hp hr h1.symm
    rw [geom_sum_eq hmu1, hmun]
    simp

theorem conj_dft (n : ℕ) (a : ℕ → ℂ) (k : ℕ) :
    (starRingEnd ℂ) (dft n a k)
      = ∑ q ∈ Finset.range n, (starRingEnd ℂ) (a q) * dftRoot n ^ (q * k) := by
  rw [dft, map_sum]
  refine Finset.sum_congr rfl fun q _ => ?_
  rw [map_mul, map_pow, map_inv₀, conj_dftRoot, inv_inv]

/-- The discrete convolution theorem in the form used by `fft_xcorr`:
entry `m` of `ifft(fft(b, n) * conj(fft(a, n)))` is the circular
cross-correlation of `a` and `b` at shift `m`. -/
theorem idft_dft_mul_conj_eq_circ (n : ℕ) (hn : 0 < n) (a b : ℕ → ℂ) (m : ℕ) :
    idft n (fun k => dft n b k * (starRingEnd ℂ) (dft n a k)) m
      = ∑ q ∈ Finset.range n, (starRingEnd ℂ) (a q) * b ((q + m) % n) := by
  have key : ∀ k, dft n b k * (starRingEnd ℂ) (dft n a k) * dftRoot n ^ (m * k)
      = ∑ p ∈ Finset.range n, ∑ q ∈ Finset.range n,
          b p * (starRingEnd ℂ) (a q)
            * (dftRoot n ^ ((q + m) % n) * (dftRoot n ^ p)⁻¹) ^ k := by
    intro k
    rw [dft, conj_dft, Finset.sum_mul_sum, Finset.sum_mul]
    refine Finset.sum_congr rfl fun p _ => ?_
    rw [Finset.sum_mul]
    refine Finset.sum_congr rfl fun q _ => ?_
    rw [← dftRoot_pow_mod n hn (q + m)]
    ring
  have hsel : ∀ q ∈ Finset.range n,
      (∑ p ∈ Finset.range n, b p * (starRingEnd ℂ) (a q)
          * (if p = (q + m) % n then (n : ℂ) else 0))
        = b ((q + m) % n) * (starRingEnd ℂ) (a q) * n := by
    intro q _
    simp only [mul_ite, mul_zero]
    rw [Finset.sum_ite_eq' (Finset.range n) ((q + m) % n)
      (fun p => b p * (starRingEnd ℂ) (a q) * n)]
    rw [if_pos (Finset.mem_range.mpr (Nat.mod_lt _ hn))]
  have hcast : (n : ℂ) ≠ 0 := Nat.cast_ne_zero.mpr hn.ne'
  have h2 : (∑ k ∈ Finset.range n,
        dft n b k * (starRingEnd ℂ) (dft n a k) * dftRoot n ^ (m * k))
      = (∑ q ∈ Finset.range n, (starRingEnd ℂ) (a q) * b ((q + m) % n)) * n := by
    calc ∑ k ∈ Finset.range n, dft n b k * (starRingEnd ℂ) (dft n a k) * dftRoot n ^ (m * k)
        = ∑ k ∈ Finset.range n, ∑ p ∈ Finset.range n, ∑ q ∈ Finset.range n,
            b p * (starRingEnd ℂ) (a q)
              * (dftRoot n ^ ((q + m) % n) * (dftRoot n ^ p)⁻¹) ^ k :=
          Finset.sum_congr rfl fun k _ => key k
      _ = ∑ p ∈ Finset.range n, ∑ k ∈ Finset.range n, ∑ q ∈ Finset.range n,
            b p * (starRingEnd ℂ) (a q)
              * (dftRoot n ^ ((q + m) % n) * (dftRoot n ^ p)⁻¹) ^ k := Finset.sum_comm
      _ = ∑ p ∈ Finset.range n, ∑ q ∈ Finset.range n, ∑ k ∈ Finset.range n,
            b p * (starRingEnd ℂ) (a q)
              * (dftRoot n ^ ((q + m) % n) * (dftRoot n ^ p)⁻¹) ^ k :=
          Finset.sum_congr rfl fun p _ => Finset.sum_comm
      _ = ∑ p ∈ Finset.range n, ∑ q ∈ Finset.range n, b p * (starRingEnd ℂ) (a q)
            * ∑ k ∈ Finset.range n, (dftRoot n ^ ((q + m) % n) * (dftRoot n ^ p)⁻¹) ^ k := by
          refine Finset.sum_congr rfl fun p _ => Finset.sum_congr rfl fun q _ => ?_
          rw [Finset.mul_sum]
      _ = ∑ p ∈ Finset.range n, ∑ q ∈ Finset.range n, b p * (starRingEnd ℂ) (a q)
            * (if p = (q + m) % n then (n : ℂ) else 0) := by
          refine Finset.sum_congr rfl fun p hp => Finset.sum_congr rfl fun q _ => ?_
          rw [dftRoot_geom_sel n hn p ((q + m) % n) (Finset.mem_range.mp hp)
            (Nat.mod_lt _ hn)]
      _ = ∑ q ∈ Finset.range n, ∑ p ∈ Finset.range n, b p * (starRingEnd ℂ) (a q)
            * (if p = (q + m) % n then (n : ℂ) else 0) := Finset.sum_comm
      _ = ∑ q ∈ Finset.range n, b ((q + m) % n) * (starRingEnd ℂ) (a q) * n :=
          Finset.sum_congr rfl hsel
      _ = (∑ q ∈ Finset.range n, (starRingEnd ℂ) (a q) * b ((q + m) % n)) * n := by
          rw [Finset.sum_mul]
          exact Finset.sum_congr rfl fun q _ => by ring
  rw [idft]
  simp only [h2]
  rw [mul_comm ((n : ℂ))⁻¹ _, mul_assoc, mul_inv_cancel₀ hcast, mul_one]

end DFT

/-! ## Claim C1: the transform-domain cross-correlation pipeline -/

theorem list_range_map_sum (g : ℕ → ℂ) : ∀ n : ℕ,
    ((List.range n).map g).sum = ∑ q ∈ Finset.range n, g q
  | 0 => by simp
  | n + 1 => by
      rw [List.range_succ, Finset.sum_range_succ, List.map_append, List.sum_append,
        list_range_map_sum g n]
      simp

theorem toC_circCorr (a b : List CQ) (n m : ℕ) :
    CQ.toC (circCorr a b n m)
      = ∑ q ∈ Finset.range n,
          (starRingEnd ℂ) (CQ.toC (a.getD q 0)) * CQ.toC (b.getD ((q + m) % n) 0) := by
  rw [circCorr, toC_csum, List.map_map, list_range_map_sum]
  refine Finset.sum_congr rfl fun q _ => ?_
  simp only [Function.comp_apply, CQ.toC_mul, CQ.toC_conj]

theorem fftSize_pos (m : ℕ) : 0 < fftSize m := Nat.pow_pos (by norm_num)

theorem fftSize_spec (m : ℕ) :
    m ≤ fftSize m ∧ ∀ j, m ≤ 2 ^ j → fftSize m ≤ 2 ^ j :=
  ⟨Nat.le_pow_clog one_lt_two m,
   fun _ hj => Nat.pow_le_pow_right (by norm_num)
     ((Nat.le_pow_iff_clog_le one_lt_two).mp hj)⟩

theorem corrList_length (a b : List CQ) :
    (corrList a b).length = a.length + b.length - 1 := by
  simp [corrList]

theorem corrList_getD (a b : List CQ) (m : ℕ) (h : m < a.length + b.length - 1) :
    (corrList a b).getD m 0 = circCorr a b (fftSize (a.length + b.length - 1)) m := by
  rw [corrList, List.getD_eq_getElem _ _ (by simpa using h)]
  simp

/-- C1: for non-empty truncated reference and capture, `fft_xcorr`
returns the correlation sequence of length `na + nb - 1`; the
transform length is the smallest power of two at least `na + nb - 1`;
each retained entry equals entry `m` of
`ifft(fft(captured, n) * conj(fft(reference, n)))` on the zero-padded
inputs (discrete convolution theorem); the peak index maximizes the
magnitude over the retained sequence (first maximum, as `np.argmax`),
and the reported lag is `peak index - (len(reference) - 1)`. -/
theorem C1_transform_domain_xcorr (refCap searchCap : ℕ)
    (txSamples rxSamples tx rx : List CQ)
    (htx : tx = txSamples.take (min txSamples.length refCap))
    (hrx : rx = rxSamples.take (min rxSamples.length searchCap))
    (htxne : tx ≠ []) (hrxne : rx ≠ []) :
    fft_xcorr tx rx = .ok (corrList tx rx)
    ∧ (corrList tx rx).length = tx.length + rx.length - 1
    ∧ (tx.length + rx.length - 1 ≤ fftSize (tx.length + rx.length - 1)
        ∧ ∀ j, tx.length + rx.length - 1 ≤ 2 ^ j →
            fftSize (tx.length + rx.length - 1) ≤ 2 ^ j)
    ∧ (∀ m, m < tx.length + rx.length - 1 →
        CQ.toC ((corrList tx rx).getD m 0)
          = idft (fftSize (tx.length + rx.length - 1))
              (fun k => dft (fftSize (tx.length + rx.length - 1))
                    (fun j => CQ.toC (rx.getD j 0)) k
                  * (starRingEnd ℂ) (dft (fftSize (tx.length + rx.length - 1))
                    (fun j => CQ.toC (tx.getD j 0)) k)) m)
    ∧ analyze_correlation refCap searchCap txSamples rxSamples = .ok (analyzeResultOf tx rx)
    ∧ (analyzeResultOf tx rx).peak_index = peakIdxOf tx rx
    ∧ peakIdxOf tx rx < (corrList tx rx).length
    ∧ (∀ i, i < (corrList tx rx).length →
        Complex.abs (CQ.toC ((corrList tx rx).getD i 0))
          ≤ Complex.abs (CQ.toC ((corrList tx rx).getD (peakIdxOf tx rx) 0)))
    ∧ (analyzeResultOf tx rx).lag_samples = (peakIdxOf tx rx : ℤ) - ((tx.length : ℤ) - 1) := by
  have htxpos : 0 < tx.length := List.length_pos.mpr htxne
  have hrxpos : 0 < rx.length := List.length_pos.mpr hrxne
  have hcorrne : corrList tx rx ≠ [] := by
    have : (corrList tx rx).length ≠ 0 := by
      rw [corrList_length]
      omega
    exact fun hnil => this (by rw [hnil]; rfl)
  refine ⟨?_, corrList_length tx rx, ⟨(fftSize_spec _).1, (fftSize_spec _).2⟩, ?_, ?_,
    rfl, ?_, ?_, rfl⟩
  · rw [fft_xcorr, if_neg (by omega)]
  · intro m _
    rw [corrList_getD tx rx m (by omega), toC_circCorr,
      idft_dft_mul_conj_eq_circ _ (fftSize_pos _)]
  · rw [analyze_correlation_eq, if_neg (by rw [← htx, ← hrx]; omega), htx, hrx]
  · rw [corrList_length]
    have := npArgmaxSq_lt_length (corrList tx rx) hcorrne
    rw [corrList_length] at this
    exact this
  · intro i hi
    rw [Complex.abs_apply, Complex.abs_apply, CQ.normSq_toC, CQ.normSq_toC]
    apply Real.sqrt_le_sqrt
    have hle : CQ.normSq ((corrList tx rx).getD i 0)
        ≤ CQ.normSq ((corrList tx rx).getD (peakIdxOf tx rx) 0) := by
      rw [peakIdxOf, normSq_getD_argmax _ hcorrne]
      exact normSq_getD_le_maxSq _ i hi
    exact_mod_cast hle

theorem C1_transform_domain_xcorr_witness :
    (corrList [⟨1, 0⟩] [⟨1, 0⟩]).length
      = ([⟨1, 0⟩] : List CQ).length + ([⟨1, 0⟩] : List CQ).length - 1 :=
  (C1_transform_domain_xcorr 5 5 [⟨1, 0⟩] [⟨1, 0⟩] [⟨1, 0⟩] [⟨1, 0⟩] rfl rfl
    (by simp) (by simp)).2.1
